import Mathlib

/-!
# Verification of the OmniSenseVoice transcription pipeline

Shallow embedding of `src/omnisense/models/sensevoice.py`:

* `OmniTranscription` / `OmniTranscription.parse` — the structured transcription record and
  the regex parser for SenseVoice output strings (lines 25-91 of the source);
* `pad_feats` — batch feature padding (lines 247-255);
* `decodePlain` — the plain-mode CTC greedy decode (argmax, collapse, blank removal,
  lines 218-228);
* `NumpyDataset.getitem` / `orderPhase` / `chunks` / `transcribe` — the dataset item
  materialisation with the 1000-sample floor, the duration sort, batching, and the
  order-restoring scatter of results (lines 128-233, 258-281);
* `timestampedBatch` — the timestamped decode branch (lines 193-217).

External collaborators (`model.inference`, `WavFrontend`, the sentencepiece tokenizer,
`ctc_greedy_search` from `k2_utils`) are not part of the file under `src/` and are taken
as opaque function parameters, following the specification's treatment of them as pure
capabilities (spec §4.4, §4.5, §6).

Python `float` values are idealised as rationals (`Rat`); `round` is modelled as exact
decimal rounding with ties to even, Python's documented rounding mode.
-/

set_option maxHeartbeats 1000000

inductive PyError where
  | valueError
  | typeError
  | attributeError
  | indexError
  deriving DecidableEq

instance {ε α : Type} [DecidableEq ε] [DecidableEq α] : DecidableEq (Except ε α) := by
  intro a b
  cases a with
  | error e₁ =>
    cases b with
    | error e₂ =>
      exact if h : e₁ = e₂ then isTrue (by rw [h])
        else isFalse (by intro hh; cases hh; exact h rfl)
    | ok v => exact isFalse (by intro hh; cases hh)
  | ok v₁ =>
    cases b with
    | error e => exact isFalse (by intro hh; cases hh)
    | ok v₂ =>
      exact if h : v₁ = v₂ then isTrue (by rw [h])
        else isFalse (by intro hh; cases hh; exact h rfl)

/-- `round` on an exact rational: ties to even (Python's rounding mode for `round`). -/
def roundHalfEven (x : Rat) : Int :=
  let f := x.floor
  let frac := x - f
  if frac < 1 / 2 then f
  else if 1 / 2 < frac then f + 1
  else if f % 2 = 0 then f else f + 1

/-- `round(x, ndigits=nd)` idealised on rationals. -/
def pyRound (nd : Nat) (x : Rat) : Rat :=
  (roundHalfEven (x * (10 : Rat) ^ nd) : Rat) / (10 : Rat) ^ nd

/-- Lhotse `AlignmentItem` as used by the timestamped decode: a word with its start time
and duration. -/
structure AlignmentItem where
  symbol : String
  start : Rat
  duration : Rat
  deriving DecidableEq

/-- The `OmniTranscription` NamedTuple. `start` and `duration` are commented out in the
source, so the record has exactly these six fields. -/
structure OmniTranscription where
  language : String
  emotion : String
  event : String
  textnorm : String
  text : Option String := none
  words : Option (List AlignmentItem) := none
  deriving DecidableEq

/-- One step of `re.match` for the pattern piece `<\|([^|]+)\|>`: consumes a leading
`<|TAG|>` where TAG is a nonempty run of characters other than `|`, returning the tag and
the remaining characters.  Since `[^|]+` cannot cross a `|`, the regex engine's behaviour
on this piece is deterministic: the tag is the maximal `|`-free run after `<|`, which must
then be followed by `|>`. -/
def matchTag (s : List Char) : Option (List Char × List Char) :=
  match s with
  | c1 :: c2 :: rest =>
    if c1 = '<' ∧ c2 = '|' then
      let tag := rest.takeWhile (fun c => c != '|')
      match rest.dropWhile (fun c => c != '|') with
      | d1 :: d2 :: rest2 =>
        if d1 = '|' ∧ d2 = '>' ∧ tag ≠ [] then some (tag, rest2) else none
      | _ => none
    else none
  | _ => none

/-- `re.match(r"<\|([^|]+)\|><\|([^|]+)\|><\|([^|]+)\|><\|([^|]+)\|>(.*)?", s)` on the
character list of `s`: four tags followed by the fifth group.  `.` does not match `\n`
(no `re.DOTALL`), and `re.match` does not anchor at the end of the string, so the fifth
group is the text up to the first newline.  Returns `ValueError` exactly when the match
fails (line 91 of the source). -/
def parseChars (s : List Char) :
    Except PyError ((List Char × List Char × List Char × List Char) × List Char) :=
  match matchTag s with
  | none => .error .valueError
  | some (t1, r1) =>
    match matchTag r1 with
    | none => .error .valueError
    | some (t2, r2) =>
      match matchTag r2 with
      | none => .error .valueError
      | some (t3, r3) =>
        match matchTag r3 with
        | none => .error .valueError
        | some (t4, r4) => .ok ((t1, t2, t3, t4), r4.takeWhile (fun c => c != '\n'))

/-- `OmniTranscription.parse` (source lines 78-91): parse the SenseVoice output string
into the record; `words` is left `None`. -/
def OmniTranscription.parse (s : String) : Except PyError OmniTranscription :=
  match parseChars s.data with
  | .error e => .error e
  | .ok ((t1, t2, t3, t4), tx) =>
    .ok { language := ⟨t1⟩, emotion := ⟨t2⟩, event := ⟨t3⟩, textnorm := ⟨t4⟩,
          text := some ⟨tx⟩, words := none }

/-- The character list `<|t|>`. -/
def tagChars (t : List Char) : List Char := '<' :: '|' :: (t ++ ['|', '>'])

/-- Spec-side notion of a valid tag: nonempty and containing no `|` character
(spec §6: "each TAG containing no `|` character"). -/
def IsTagChars (t : List Char) : Prop := t ≠ [] ∧ '|' ∉ t

instance (t : List Char) : Decidable (IsTagChars t) := by
  unfold IsTagChars; infer_instance

/-- Spec-side shape of a parseable string (spec §6.2 grammar, written from the spec's
words for comparison with `parseChars`): four bracketed tags followed by arbitrary free
text. -/
def MatchesTagShape (s : List Char) : Prop :=
  ∃ t1 t2 t3 t4 rest, IsTagChars t1 ∧ IsTagChars t2 ∧ IsTagChars t3 ∧ IsTagChars t4 ∧
    s = tagChars t1 ++ tagChars t2 ++ tagChars t3 ++ tagChars t4 ++ rest

lemma takeWhile_append_cons {α : Type} (p : α → Bool) (t : List α) (c : α) (r : List α)
    (ht : ∀ x ∈ t, p x = true) (hc : p c = false) :
    (t ++ c :: r).takeWhile p = t ∧ (t ++ c :: r).dropWhile p = c :: r := by
  induction t with
  | nil => simp [List.takeWhile_cons, List.dropWhile_cons, hc]
  | cons a t ih =>
    have ha : p a = true := ht a (by simp)
    have := ih (fun x hx => ht x (by simp [hx]))
    simp [List.takeWhile_cons, List.dropWhile_cons, ha, this.1, this.2]

lemma takeWhile_eq_of_all {α : Type} (p : α → Bool) (l : List α)
    (h : ∀ x ∈ l, p x = true) : l.takeWhile p = l := by
  induction l with
  | nil => rfl
  | cons a l ih =>
    simp [List.takeWhile_cons, h a (by simp), ih (fun x hx => h x (by simp [hx]))]

lemma matchTag_of_tag (t r : List Char) (h : IsTagChars t) :
    matchTag (tagChars t ++ r) = some (t, r) := by
  obtain ⟨hne, hmem⟩ := h
  have ht : ∀ x ∈ t, (x != '|') = true := by
    intro x hx
    simp only [bne_iff_ne, ne_eq]
    intro hx'
    exact hmem (hx' ▸ hx)
  have hsplit := takeWhile_append_cons (fun c => c != '|') t '|' ('>' :: r) ht (by simp)
  have hshape : tagChars t ++ r = '<' :: '|' :: (t ++ '|' :: ('>' :: r)) := by
    simp [tagChars]
  rw [hshape]
  simp [matchTag, hsplit.1, hsplit.2, hne]

lemma matchTag_some (s t r : List Char) (h : matchTag s = some (t, r)) :
    s = tagChars t ++ r ∧ IsTagChars t := by
  match s with
  | [] => simp [matchTag] at h
  | [c1] => simp [matchTag] at h
  | c1 :: c2 :: rest =>
    simp only [matchTag] at h
    split at h
    case isFalse => simp at h
    case isTrue hlt =>
      obtain ⟨h1, h2⟩ := hlt
      subst h1; subst h2
      revert h
      split
      case h_2 => intro h; simp at h
      case h_1 d1 d2 rest2 hdrop =>
        intro h
        split at h
        case isFalse => simp at h
        case isTrue hcond =>
          obtain ⟨hd1, hd2, hne⟩ := hcond
          subst hd1; subst hd2
          have hpair : rest.takeWhile (fun c => c != '|') = t ∧ rest2 = r := by
            constructor
            · exact congrArg Prod.fst (Option.some.inj h)
            · exact congrArg Prod.snd (Option.some.inj h)
          obtain ⟨htag, hr2⟩ := hpair
          have hrest : rest = t ++ '|' :: '>' :: r := by
            conv_lhs => rw [← List.takeWhile_append_dropWhile (fun c => c != '|') rest]
            rw [htag, hdrop, hr2]
          refine ⟨by simp [tagChars, hrest], htag ▸ hne, ?_⟩
          intro hmem
          rw [← htag] at hmem
          have := List.mem_takeWhile_imp hmem
          simp at this

/-- C2 (amended): `parse` fails (`ParseError`/`ValueError`) exactly when the input does
not have the shape of four nonempty `|`-free bracketed tags followed by optional free
text; when the shape matches, it returns the four tags, and the trailing text truncated
at the first newline (the regex `.` does not match `\n`). -/
theorem parse_error_iff_shape (s : List Char) :
    ((∃ e, parseChars s = .error e) ↔ ¬ MatchesTagShape s) ∧
    (∀ t1 t2 t3 t4 rest, IsTagChars t1 → IsTagChars t2 → IsTagChars t3 → IsTagChars t4 →
      s = tagChars t1 ++ tagChars t2 ++ tagChars t3 ++ tagChars t4 ++ rest →
      parseChars s = .ok ((t1, t2, t3, t4), rest.takeWhile (fun c => c != '\n'))) := by
  have hok : ∀ t1 t2 t3 t4 rest, IsTagChars t1 → IsTagChars t2 → IsTagChars t3 →
      IsTagChars t4 →
      s = tagChars t1 ++ tagChars t2 ++ tagChars t3 ++ tagChars t4 ++ rest →
      parseChars s = .ok ((t1, t2, t3, t4), rest.takeWhile (fun c => c != '\n')) := by
    intro t1 t2 t3 t4 rest h1 h2 h3 h4 hs
    subst hs
    have m1 := matchTag_of_tag t1 (tagChars t2 ++ (tagChars t3 ++ (tagChars t4 ++ rest))) h1
    have m2 := matchTag_of_tag t2 (tagChars t3 ++ (tagChars t4 ++ rest)) h2
    have m3 := matchTag_of_tag t3 (tagChars t4 ++ rest) h3
    have m4 := matchTag_of_tag t4 rest h4
    simp only [parseChars, List.append_assoc, m1, m2, m3, m4]
  refine ⟨⟨?_, ?_⟩, hok⟩
  · rintro ⟨e, he⟩ hshape
    obtain ⟨t1, t2, t3, t4, rest, h1, h2, h3, h4, hs⟩ := hshape
    rw [hok t1 t2 t3 t4 rest h1 h2 h3 h4 hs] at he
    cases he
  · intro hshape
    cases hp : parseChars s with
    | error e => exact ⟨e, rfl⟩
    | ok v =>
      exfalso
      apply hshape
      obtain ⟨⟨tg1, tg2, tg3, tg4⟩, tx⟩ := v
      simp only [parseChars] at hp
      cases hm1 : matchTag s with
      | none => simp [hm1] at hp
      | some p1 =>
        obtain ⟨s1, r1⟩ := p1
        simp only [hm1] at hp
        cases hm2 : matchTag r1 with
        | none => simp [hm2] at hp
        | some p2 =>
          obtain ⟨s2, r2⟩ := p2
          simp only [hm2] at hp
          cases hm3 : matchTag r2 with
          | none => simp [hm3] at hp
          | some p3 =>
            obtain ⟨s3, r3⟩ := p3
            simp only [hm3] at hp
            cases hm4 : matchTag r3 with
            | none => simp [hm4] at hp
            | some p4 =>
              obtain ⟨s4, r4⟩ := p4
              obtain ⟨e1, i1⟩ := matchTag_some _ _ _ hm1
              obtain ⟨e2, i2⟩ := matchTag_some _ _ _ hm2
              obtain ⟨e3, i3⟩ := matchTag_some _ _ _ hm3
              obtain ⟨e4, i4⟩ := matchTag_some _ _ _ hm4
              exact ⟨s1, s2, s3, s4, r4, i1, i2, i3, i4, by
                rw [e1, e2, e3, e4]; simp [List.append_assoc]⟩

theorem parse_error_iff_shape_witness :
    IsTagChars "en".data ∧
    parseChars ("<|en|><|NEUTRAL|><|Speech|><|woitn|>hi".data) =
      .ok (("en".data, "NEUTRAL".data, "Speech".data, "woitn".data),
           ("hi".data).takeWhile (fun c => c != '\n')) :=
  ⟨by decide,
   (parse_error_iff_shape _).2 "en".data "NEUTRAL".data "Speech".data "woitn".data
     "hi".data (by decide) (by decide) (by decide) (by decide) (by decide)⟩

/-- C2 counterexample: the string below matches the four-tag shape with trailing text
`"x\ny"`, yet `parse` returns `text = "x"`: the fifth regex group `(.*)` stops at the
first newline, so the trailing text is not returned in full as the claim states. -/
theorem parse_newline_counterexample :
    OmniTranscription.parse "<|a|><|b|><|c|><|d|>x\ny" =
      .ok { language := "a", emotion := "b", event := "c", textnorm := "d",
            text := some "x", words := none } ∧
    MatchesTagShape ("<|a|><|b|><|c|><|d|>x\ny".data) ∧
    (some "x" : Option String) ≠ some "x\ny" := by
  refine ⟨by decide, ⟨['a'], ['b'], ['c'], ['d'], ['x', '\n', 'y'],
    by decide, by decide, by decide, by decide, by decide⟩, by decide⟩

/-- C3 (amended): round trip for a valid `Transcription` whose tags are nonempty and
`|`-free and whose text contains no newline: parsing
`<|language|><|emotion|><|event|><|textnorm|>text` reconstructs the fields
(`words` excluded, which `parse` always leaves `None`). -/
theorem parse_roundtrip (t : OmniTranscription) (tx : String)
    (htext : t.text = some tx)
    (h1 : IsTagChars t.language.data) (h2 : IsTagChars t.emotion.data)
    (h3 : IsTagChars t.event.data) (h4 : IsTagChars t.textnorm.data)
    (hnl : '\n' ∉ tx.data) :
    OmniTranscription.parse
        ("<|" ++ t.language ++ "|><|" ++ t.emotion ++ "|><|" ++ t.event ++ "|><|"
          ++ t.textnorm ++ "|>" ++ tx)
      = .ok { language := t.language, emotion := t.emotion, event := t.event,
              textnorm := t.textnorm, text := t.text, words := none } := by
  have hdata :
      ("<|" ++ t.language ++ "|><|" ++ t.emotion ++ "|><|" ++ t.event ++ "|><|"
        ++ t.textnorm ++ "|>" ++ tx).data
        = tagChars t.language.data ++ tagChars t.emotion.data ++ tagChars t.event.data
          ++ tagChars t.textnorm.data ++ tx.data := by
    simp [String.data_append, tagChars, List.append_assoc]
  have hshape := (parse_error_iff_shape
      (("<|" ++ t.language ++ "|><|" ++ t.emotion ++ "|><|" ++ t.event ++ "|><|"
        ++ t.textnorm ++ "|>" ++ tx).data)).2
      t.language.data t.emotion.data t.event.data t.textnorm.data tx.data
      h1 h2 h3 h4 hdata
  have htw : tx.data.takeWhile (fun c => c != '\n') = tx.data := by
    apply takeWhile_eq_of_all
    intro x hx
    simp only [bne_iff_ne, ne_eq]
    intro hx'
    exact hnl (hx' ▸ hx)
  rw [OmniTranscription.parse, hshape, htw, htext]

theorem parse_roundtrip_witness :
    (({ language := "en", emotion := "NEUTRAL", event := "Speech", textnorm := "woitn",
        text := some "ok", words := none } : OmniTranscription).text = some "ok") ∧
    OmniTranscription.parse "<|en|><|NEUTRAL|><|Speech|><|woitn|>ok"
      = .ok { language := "en", emotion := "NEUTRAL", event := "Speech",
              textnorm := "woitn", text := some "ok", words := none } := by
  refine ⟨rfl, ?_⟩
  have := parse_roundtrip
    { language := "en", emotion := "NEUTRAL", event := "Speech", textnorm := "woitn",
      text := some "ok", words := none } "ok" rfl
    (by decide) (by decide) (by decide) (by decide) (by decide)
  simpa using this

/-- C3 counterexample: the valid record with text `"hi\nthere"` does not round-trip:
the reconstructed text is truncated at the newline. -/
theorem parse_roundtrip_counterexample :
    OmniTranscription.parse "<|zh|><|HAPPY|><|Speech|><|withitn|>hi\nthere"
      = .ok { language := "zh", emotion := "HAPPY", event := "Speech",
              textnorm := "withitn", text := some "hi", words := none } ∧
    (some "hi" : Option String) ≠ some "hi\nthere" := by
  exact ⟨by decide, by decide⟩

/-- A 2-D `float32` numpy array as produced by `lfr_cmvn`: its rows and its carried
column count (numpy arrays keep `shape[1]` even with zero rows). -/
structure Feature where
  rows : List (List Rat)
  dim : Nat
  deriving DecidableEq

/-- The inner `pad_feat` of `OmniSenseVoiceSmall.pad_feats` (lines 249-251):
`np.pad(feat, ((0, max_feat_len - cur_len), (0, 0)), "constant", constant_values=0)`,
i.e. append `max_feat_len - cur_len` zero rows. -/
def pad_feat (max_feat_len : Nat) (feat : Feature) : Feature :=
  { rows := feat.rows ++
      List.replicate (max_feat_len - feat.rows.length) (List.replicate feat.dim 0),
    dim := feat.dim }

/-- `OmniSenseVoiceSmall.pad_feats` (lines 247-255). -/
def pad_feats (feats : List Feature) (max_feat_len : Nat) : List Feature :=
  feats.map (pad_feat max_feat_len)

/-- `np.max` over the list of true lengths, as computed in `extract_feat` (line 243);
`np.max` of a nonempty list of naturals is its maximum. -/
def npMax (l : List Nat) : Nat := l.foldl max 0

lemma init_le_foldl_max : ∀ (l : List Nat) (b : Nat), b ≤ l.foldl max b := by
  intro l
  induction l with
  | nil => intro b; exact Nat.le_refl b
  | cons x xs ih => intro b; exact le_trans (Nat.le_max_left b x) (ih (max b x))

lemma le_foldl_max_of_mem {l : List Nat} {a : Nat} (h : a ∈ l) :
    ∀ b, a ≤ l.foldl max b := by
  induction l with
  | nil => cases h
  | cons x xs ih =>
    intro b
    rcases List.mem_cons.mp h with h | h
    · subst h
      exact le_trans (Nat.le_max_right b a) (init_le_foldl_max xs (max b a))
    · exact ih h (max b x)

lemma le_npMax_of_mem {l : List Nat} {a : Nat} (h : a ∈ l) : a ≤ npMax l :=
  le_foldl_max_of_mem h 0

/-- C4: padding a batch of features to the batch's maximum true length: the result has
one entry per feature, every padded feature has exactly `npMax` rows (the time dimension
of the stacked 3-D array), every true length is bounded by it (so truncation never
occurs), the original rows are preserved unchanged as a prefix, and every row at or
beyond the true length is a zero row of the common width `d`. -/
theorem pad_feats_spec (feats : List Feature) (d : Nat)
    (hne : feats ≠ [])
    (hd : ∀ f ∈ feats, f.dim = d)
    (hwf : ∀ f ∈ feats, ∀ row ∈ f.rows, row.length = f.dim) :
    (pad_feats feats (npMax (feats.map (fun f => f.rows.length)))).length = feats.length ∧
    (∀ p ∈ pad_feats feats (npMax (feats.map (fun f => f.rows.length))),
      p.rows.length = npMax (feats.map (fun f => f.rows.length)) ∧
      ∀ row ∈ p.rows, row.length = d) ∧
    (∀ f ∈ feats, f.rows.length ≤ npMax (feats.map (fun f => f.rows.length))) ∧
    (∀ i (hi : i < feats.length)
        (hi' : i < (pad_feats feats (npMax (feats.map (fun f => f.rows.length)))).length),
      ((pad_feats feats (npMax (feats.map (fun f => f.rows.length)))).get
          ⟨i, hi'⟩).rows.take (feats.get ⟨i, hi⟩).rows.length = (feats.get ⟨i, hi⟩).rows ∧
      ∀ j, (feats.get ⟨i, hi⟩).rows.length ≤ j →
        j < npMax (feats.map (fun f => f.rows.length)) →
        ((pad_feats feats (npMax (feats.map (fun f => f.rows.length)))).get
            ⟨i, hi'⟩).rows.getD j [] = List.replicate d 0) := by
  set M := npMax (feats.map (fun f => f.rows.length)) with hM
  have hbound : ∀ f ∈ feats, f.rows.length ≤ M := by
    intro f hf
    exact le_npMax_of_mem (List.mem_map_of_mem (fun f => f.rows.length) hf)
  refine ⟨by simp [pad_feats], ?_, hbound, ?_⟩
  · intro p hp
    obtain ⟨f, hf, hpf⟩ := List.mem_map.mp hp
    subst hpf
    constructor
    · simp only [pad_feat, List.length_append, List.length_replicate]
      exact Nat.add_sub_cancel' (hbound f hf)
    · intro row hrow
      rcases List.mem_append.mp hrow with h | h
      · rw [hwf f hf row h, hd f hf]
      · rw [List.eq_of_mem_replicate h, List.length_replicate, hd f hf]
  · intro i hi hi'
    have hget : (pad_feats feats M).get ⟨i, hi'⟩ = pad_feat M (feats.get ⟨i, hi⟩) := by
      simp [pad_feats]
    constructor
    · rw [hget]
      simp only [pad_feat]
      exact List.take_left _ _
    · intro j hj hjM
      rw [hget]
      simp only [pad_feat]
      have hlen : j - (feats.get ⟨i, hi⟩).rows.length
          < M - (feats.get ⟨i, hi⟩).rows.length := by omega
      rw [List.getD_eq_getElem?_getD, List.getElem?_append_right hj,
        List.getElem?_replicate]
      simp only [hlen, if_pos]
      rw [hd _ (List.get_mem feats _ _)]
      rfl

theorem pad_feats_spec_witness :
    (([⟨[[1, 2]], 2⟩, ⟨[[3, 4], [5, 6]], 2⟩] : List Feature) ≠ []) ∧
    (pad_feats [⟨[[1, 2]], 2⟩, ⟨[[3, 4], [5, 6]], 2⟩]
        (npMax (([⟨[[1, 2]], 2⟩, ⟨[[3, 4], [5, 6]], 2⟩] : List Feature).map
          (fun f => f.rows.length)))).length
      = ([⟨[[1, 2]], 2⟩, ⟨[[3, 4], [5, 6]], 2⟩] : List Feature).length ∧
    ∀ f ∈ ([⟨[[1, 2]], 2⟩, ⟨[[3, 4], [5, 6]], 2⟩] : List Feature),
      f.rows.length ≤ npMax (([⟨[[1, 2]], 2⟩, ⟨[[3, 4], [5, 6]], 2⟩] : List Feature).map
        (fun f => f.rows.length)) := by
  have h := pad_feats_spec [⟨[[1, 2]], 2⟩, ⟨[[3, 4], [5, 6]], 2⟩] 2
    (by decide) (by decide) (by decide)
  exact ⟨by decide, h.1, h.2.2.1⟩

/-- Helper for `argmaxIdx`: carries the current best (index, value); a later value
replaces the best only when strictly greater, so ties resolve to the first maximal
index, as `torch.argmax` documents. -/
def argmaxGo : Nat × Int → Nat → List Int → Nat × Int
  | best, _, [] => best
  | best, i, y :: ys => argmaxGo (if best.2 < y then (i, y) else best) (i + 1) ys

/-- Per-frame `torch.argmax(dim=-1)`: index of the first maximal entry of a logit row. -/
def argmaxIdx : List Int → Nat
  | [] => 0
  | x :: xs => (argmaxGo (0, x) 1 xs).1

/-- `torch.unique_consecutive` on a 1-D id sequence: collapse runs of equal consecutive
ids to a single occurrence. -/
def uniqueConsecutive : List Nat → List Nat
  | [] => []
  | [a] => [a]
  | a :: b :: rest =>
    if a = b then uniqueConsecutive (b :: rest)
    else a :: uniqueConsecutive (b :: rest)

/-- `self.blank_id = 0` (source line 125). -/
def blank_id : Nat := 0

/-- Plain-mode decode of one item (source lines 218-228): per-frame argmax over the
item's logits (`ctc_logits.argmax(dim=-1)` then `[:encoder_out_lens[b]]`), collapse of
consecutive duplicates, and removal of the blank id. -/
def decodePlain (logits : List (List Int)) (outLen : Nat) : List Nat :=
  let ctc_maxids := logits.map argmaxIdx
  let yseq := ctc_maxids.take outLen
  (uniqueConsecutive yseq).filter (fun t => t != blank_id)

lemma uniqueConsecutive_of_chain :
    ∀ l : List Nat, l.Chain' (fun a b => a ≠ b) → uniqueConsecutive l = l := by
  intro l
  induction l with
  | nil => intro _; rfl
  | cons a tl ih =>
    intro hc
    cases tl with
    | nil => rfl
    | cons b rest =>
      rw [List.chain'_cons] at hc
      rw [uniqueConsecutive, if_neg hc.1, ih hc.2]

/-- C5: the plain-mode decoded token sequence equals the claim's description — argmax
restricted to the first `outLen` frames, duplicates collapsed, blanks (id 0) removed —
and the collapse-and-deblank operation is the identity on any sequence that already has
no consecutive duplicates and no blanks. -/
theorem decodePlain_spec (logits : List (List Int)) (outLen : Nat) (l : List Nat)
    (hChain : l.Chain' (fun a b => a ≠ b)) (hBlank : blank_id ∉ l) :
    decodePlain logits outLen
      = (uniqueConsecutive ((logits.take outLen).map argmaxIdx)).filter
          (fun t => t != blank_id) ∧
    (uniqueConsecutive l).filter (fun t => t != blank_id) = l := by
  constructor
  · rw [decodePlain, List.map_take]
  · rw [uniqueConsecutive_of_chain l hChain]
    apply List.filter_eq_self.mpr
    intro a ha
    simp only [bne_iff_ne, ne_eq]
    intro h
    exact hBlank (h ▸ ha)

theorem decodePlain_spec_witness :
    ([3, 1, 2] : List Nat).Chain' (fun a b => a ≠ b) ∧
    decodePlain [[1, 5], [2, 0], [2, 0]] 2
      = (uniqueConsecutive (([ [1, 5], [2, 0], [2, 0] ].take 2).map argmaxIdx)).filter
          (fun t => t != blank_id) ∧
    (uniqueConsecutive [3, 1, 2]).filter (fun t => t != blank_id) = [3, 1, 2] := by
  have hch : ([3, 1, 2] : List Nat).Chain' (fun a b => a ≠ b) := by
    simp [List.chain'_cons, List.chain'_singleton]
  refine ⟨hch, decodePlain_spec [[1, 5], [2, 0], [2, 0]] 2 [3, 1, 2] hch (by decide)⟩

/-- Attribute access for the numeric fields used by the `end` property.  The
`OmniTranscription` NamedTuple declares only `language`, `emotion`, `event`, `textnorm`,
`text` and `words`; `start` and `duration` are commented out in the source, so looking
either of them up on an instance raises `AttributeError`. -/
def OmniTranscription.numericAttr (_ : OmniTranscription) (_ : String) :
    Except PyError Rat :=
  .error .attributeError

/-- The `end` property (source lines 48-50): `round(self.start + self.duration,
ndigits=8)`.  Since the record has no `start` or `duration` field, the first attribute
lookup fails. -/
def OmniTranscription.end_accessor (t : OmniTranscription) : Except PyError Rat :=
  match t.numericAttr "start" with
  | .error e => .error e
  | .ok s =>
    match t.numericAttr "duration" with
    | .error e => .error e
    | .ok d => .ok (pyRound 8 (s + d))

/-- C8: accessing `end` raises `AttributeError` on every record (evaluated on a concrete
record and in general): the claimed `round(start + duration, 8)` is never returned
because `start` and `duration` are commented out of the NamedTuple while the
`end` property still references them. -/
theorem end_accessor_raises :
    OmniTranscription.end_accessor
        { language := "en", emotion := "NEUTRAL", event := "Speech", textnorm := "woitn" }
      = .error .attributeError ∧
    ∀ t : OmniTranscription, t.end_accessor = .error .attributeError :=
  ⟨rfl, fun _ => rfl⟩

/-- An input audio item in one of the three supported representations.  A `path` carries
the duration probed from the file header (`Recording.from_file(...).duration`, used as
the sort key) together with the mono waveform its decoding yields; a `cut` carries its
`duration` metadata and the waveform `load_audio` yields; a `wave` is the raw 1-D array
itself (sort key `shape[0]`).  Sample values are idealised rationals. -/
inductive AudioItem where
  | path (dur : Nat) (samples : List Rat)
  | wave (samples : List Rat)
  | cut (dur : Nat) (samples : List Rat)
  deriving DecidableEq

inductive AudioKind where
  | path
  | wave
  | cut
  deriving DecidableEq

def AudioItem.kind : AudioItem → AudioKind
  | .path .. => .path
  | .wave .. => .wave
  | .cut .. => .cut

/-- The duration proxy each sorting branch compares: `x[1].duration` for cuts,
`recording.duration` for paths, `x[1].shape[0]` for waveforms. -/
def AudioItem.durationProxy : AudioItem → Nat
  | .path d _ => d
  | .wave s => s.length
  | .cut d _ => d

/-- The path branch of the sort wraps every file into a
`MultiCut(recording, start=0, duration=recording.duration, channel=0)`; materialising
that cut yields the same mono waveform in this model. -/
def AudioItem.toCut : AudioItem → AudioItem
  | .path d s => .cut d s
  | a => a

/-- The argument of `transcribe`: either a single non-list item or a Python list. -/
inductive AudioInput where
  | one (item : AudioItem)
  | many (items : List AudioItem)

def sortLe (x y : Nat × AudioItem) : Prop :=
  x.2.durationProxy ≤ y.2.durationProxy

instance : DecidableRel sortLe := fun x y =>
  inferInstanceAs (Decidable (x.2.durationProxy ≤ y.2.durationProxy))

/-- The ordering phase of `transcribe` (source lines 139-158).  A non-list input becomes
the single pair `(0, audio)`.  For a list with `sort_by_duration=True` the code reads
`audio[0]` (IndexError on an empty list) and dispatches on its type; each branch
computes its duration proxy for *every* element, so a list mixing representations
raises (`AttributeError` from the missing `duration`/`shape` attribute in the cut and
waveform branches, a type error from `Recording.from_file` in the path branch) — the
guard `audio.all ...` models exactly that failure condition.  Python's `sorted` is
stable; `List.insertionSort` is a stable sort, so on a homogeneous list both produce
the same output.  With `sort_by_duration=False` the list is just enumerated. -/
def orderPhase (sort_by_duration : Bool) : AudioInput →
    Except PyError (List (Nat × AudioItem))
  | .one a => .ok [(0, a)]
  | .many audio =>
    if sort_by_duration then
      match audio with
      | [] => .error .indexError
      | a0 :: _ =>
        match a0.kind with
        | .cut =>
          if audio.all (fun a => a.kind == .cut) then
            .ok (List.insertionSort sortLe audio.enum)
          else .error .attributeError
        | .path =>
          if audio.all (fun a => a.kind == .path) then
            .ok (List.insertionSort sortLe (audio.map AudioItem.toCut).enum)
          else .error .typeError
        | .wave =>
          if audio.all (fun a => a.kind == .wave) then
            .ok (List.insertionSort sortLe audio.enum)
          else .error .attributeError
    else
      .ok audio.enum

/-- Materialise an item to its mono waveform: `librosa.load(path, sr, mono=True)[0]`
for paths, `cut.resample(sr).load_audio()[0]` for cuts, the array itself for waveforms
(source lines 266-275; the `else: raise ValueError` branch is unreachable here because
`AudioItem` covers exactly the supported types). -/
def materialize : AudioItem → List Rat
  | .wave s => s
  | .path _ s => s
  | .cut _ s => s

/-- `NumpyDataset.__getitem__` (source lines 266-281): materialise the item and
right-pad waveforms of at most 1000 samples with zeros up to exactly 1000. -/
def NumpyDataset.getitem (p : Nat × AudioItem) : Nat × List Rat :=
  let audio := (p.1, materialize p.2)
  if audio.2.length ≤ 1000 then
    (audio.1, audio.2 ++ List.replicate (1000 - audio.2.length) 0)
  else audio

/-- Consecutive batches of size `bs` (a trailing partial batch included), as the
sequential `DataLoader` with `shuffle=False`, `drop_last=False` produces them.  Defined
with a fuel argument (the list length) so that it is structurally recursive. -/
def chunksGo (bs : Nat) : Nat → List α → List (List α)
  | _, [] => []
  | 0, _ :: _ => []
  | fuel + 1, a :: l => ((a :: l).take bs) :: chunksGo bs fuel ((a :: l).drop bs)

def chunks (bs : Nat) (l : List α) : List (List α) := chunksGo bs l.length l

/-- `results[index] = value` writes of a scatter loop, in order. -/
def writeAll (r : List δ) (ps : List (Nat × δ)) : List δ :=
  ps.foldl (fun acc p => acc.set p.1 p.2) r

/-- `[OmniTranscription.parse(i) for i in results]` (source line 233): a `None` entry
would make `re.match` raise `TypeError`; a parse failure propagates. -/
def toParse : Option String → Except PyError OmniTranscription
  | some s => OmniTranscription.parse s
  | none => .error .typeError

/-- Sequential list comprehension with exception propagation. -/
def mapOrFail (h : α → Except PyError β) : List α → Except PyError (List β)
  | [] => .ok []
  | a :: l =>
    match h a with
    | .error e => .error e
    | .ok b =>
      match mapOrFail h l with
      | .error e => .error e
      | .ok bs => .ok (b :: bs)

/-- `OmniSenseVoiceSmall.transcribe` (source lines 128-233), `timestamps=False` branch;
the timestamped per-batch work is modelled by `timestampedBatch` below.  `transcribeOne`
stands for the per-item composite of the external capabilities — feature extraction
(`WavFrontend`), `model.inference` and the tokenizer decode of the CTC-decoded ids.
Modelled from the spec: `model.inference` (`omnisense/models/model.py`) is not under
`src/`; per spec §4.4 it is a pure function whose output for item `i` is bounded by
`output_lengths[i]`, and per §4.3/§8 the zero-padded region beyond an item's true
length never influences its decode, so the per-item result is a function of that item's
materialised waveform alone.  The pipeline orders the items, batches them, scatters
each batch's decoded strings into `results` at the items' original indices, and finally
parses every entry. -/
def transcribe (transcribeOne : List Rat → String) (sort_by_duration : Bool)
    (batch_size : Nat) (audio : AudioInput) : Except PyError (List OmniTranscription) :=
  match orderPhase sort_by_duration audio with
  | .error e => .error e
  | .ok audios =>
    let batches := chunks batch_size audios
    let results :=
      batches.foldl
        (fun acc batch =>
          batch.foldl
            (fun res p => res.set p.1 (some (transcribeOne (NumpyDataset.getitem p).2)))
            acc)
        (List.replicate audios.length (none : Option String))
    mapOrFail toParse results

/-- The per-item result of the plain-mode pipeline: parse the decode of the item's
(possibly length-floored) waveform. -/
def itemResult (transcribeOne : List Rat → String) (a : AudioItem) :
    Except PyError OmniTranscription :=
  OmniTranscription.parse (transcribeOne (NumpyDataset.getitem (0, a)).2)

lemma chunksGo_flatten {α : Type} (bs : Nat) (hbs : 1 ≤ bs) :
    ∀ (fuel : Nat) (l : List α), l.length ≤ fuel → (chunksGo bs fuel l).flatten = l := by
  intro fuel
  induction fuel with
  | zero =>
    intro l hl
    match l with
    | [] => rfl
    | a :: l => simp at hl
  | succ fuel ih =>
    intro l hl
    match l with
    | [] => rfl
    | a :: l =>
      have hdrop : ((a :: l).drop bs).length ≤ fuel := by
        rw [List.length_drop]
        simp only [List.length_cons] at hl ⊢
        omega
      rw [chunksGo, List.flatten_cons, ih _ hdrop]
      exact List.take_append_drop bs (a :: l)

lemma chunks_flatten {α : Type} (bs : Nat) (hbs : 1 ≤ bs) (l : List α) :
    (chunks bs l).flatten = l :=
  chunksGo_flatten bs hbs l.length l (Nat.le_refl _)

lemma foldl_batches {α β : Type} (L : List (List α)) (g : β → α → β) (init : β) :
    L.foldl (fun acc b => b.foldl g acc) init = L.flatten.foldl g init := by
  induction L generalizing init with
  | nil => rfl
  | cons b L ih => rw [List.flatten_cons, List.foldl_append, List.foldl_cons, ih]

lemma writeAll_length {δ : Type} : ∀ (ps : List (Nat × δ)) (r : List δ),
    (writeAll r ps).length = r.length := by
  intro ps
  induction ps with
  | nil => intro r; rfl
  | cons p ps ih =>
    intro r
    rw [writeAll, List.foldl_cons, ← writeAll, ih, List.length_set]

lemma mem_enumFrom_get {α : Type} :
    ∀ (l : List α) (n : Nat) (x : Nat × α), x ∈ List.enumFrom n l →
      n ≤ x.1 ∧ l.get? (x.1 - n) = some x.2 := by
  intro l
  induction l with
  | nil => intro n x hx; cases hx
  | cons a tl ih =>
    intro n x hx
    rw [show List.enumFrom n (a :: tl) = (n, a) :: List.enumFrom (n + 1) tl from rfl]
      at hx
    rcases List.mem_cons.mp hx with h | h
    · subst h
      exact ⟨Nat.le_refl n, by simp⟩
    · obtain ⟨h1, h2⟩ := ih (n + 1) x h
      refine ⟨le_trans (Nat.le_succ n) h1, ?_⟩
      have : x.1 - n = (x.1 - (n + 1)) + 1 := by omega
      rw [this]
      simpa using h2

lemma enum_fst_inj {α : Type} {l : List α} {x y : Nat × α}
    (hx : x ∈ l.enum) (hy : y ∈ l.enum) (hxy : x.1 = y.1) : x = y := by
  obtain ⟨_, hx2⟩ := mem_enumFrom_get l 0 x hx
  obtain ⟨_, hy2⟩ := mem_enumFrom_get l 0 y hy
  rw [Nat.sub_zero] at hx2 hy2
  rw [hxy] at hx2
  rw [hx2] at hy2
  exact Prod.ext hxy (Option.some.inj hy2)

lemma writeAll_perm {δ : Type} (r : List δ) {ps qs : List (Nat × δ)} (h : ps.Perm qs)
    (hinj : ∀ x ∈ ps, ∀ y ∈ ps, x.1 = y.1 → x.2 = y.2) :
    writeAll r ps = writeAll r qs := by
  apply h.foldl_eq'
  intro x hx y hy z
  by_cases hxy : x.1 = y.1
  · rw [hinj x hx y hy hxy, hxy, List.set_set]
  · exact List.set_comm _ _ _ hxy

lemma set_append_length {δ : Type} : ∀ (l₁ : List δ) (b : δ) (l₂ : List δ) (v : δ),
    (l₁ ++ b :: l₂).set l₁.length v = l₁ ++ v :: l₂ := by
  intro l₁
  induction l₁ with
  | nil => intro b l₂ v; rfl
  | cons a l₁ ih =>
    intro b l₂ v
    simp only [List.cons_append, List.length_cons, List.set_cons_succ, ih]

lemma writeAll_enumFrom_map {α δ : Type} (v : α → δ) :
    ∀ (l : List α) (r₀ : List δ) (filler : δ),
      writeAll (r₀ ++ List.replicate l.length filler)
          ((List.enumFrom r₀.length l).map (fun p => (p.1, v p.2)))
        = r₀ ++ l.map v := by
  intro l
  induction l with
  | nil => intro r₀ filler; simp [writeAll]
  | cons a tl ih =>
    intro r₀ filler
    rw [show List.enumFrom r₀.length (a :: tl)
        = (r₀.length, a) :: List.enumFrom (r₀.length + 1) tl from rfl]
    rw [List.map_cons, writeAll, List.foldl_cons, ← writeAll]
    rw [show List.replicate (a :: tl).length filler
        = filler :: List.replicate tl.length filler from rfl]
    rw [set_append_length r₀ filler (List.replicate tl.length filler) (v a)]
    have hlen : r₀.length + 1 = (r₀ ++ [v a]).length := by simp
    have happ : r₀ ++ v a :: List.replicate tl.length filler
        = (r₀ ++ [v a]) ++ List.replicate tl.length filler := by simp
    rw [happ, hlen, ih (r₀ ++ [v a]) filler]
    simp

lemma mapOrFail_map {α β γ : Type} (h : β → Except PyError γ) (f : α → β) :
    ∀ l : List α, mapOrFail h (l.map f) = mapOrFail (fun a => h (f a)) l := by
  intro l
  induction l with
  | nil => rfl
  | cons a l ih => rw [List.map_cons, mapOrFail, mapOrFail, ih]

lemma mapOrFail_ok {α β : Type} (h : α → Except PyError β) :
    ∀ (l : List α) (res : List β), mapOrFail h l = .ok res →
      res.length = l.length ∧
      ∀ i (h1 : i < l.length) (h2 : i < res.length),
        h (l.get ⟨i, h1⟩) = .ok (res.get ⟨i, h2⟩) := by
  intro l
  induction l with
  | nil =>
    intro res hres
    cases hres
    exact ⟨rfl, by intro i h1 _; cases h1⟩
  | cons a l ih =>
    intro res hres
    rw [mapOrFail] at hres
    cases ha : h a with
    | error e => rw [ha] at hres; cases hres
    | ok b =>
      rw [ha] at hres
      cases hl : mapOrFail h l with
      | error e => rw [hl] at hres; cases hres
      | ok bs =>
        rw [hl] at hres
        cases hres
        obtain ⟨hlen, hget⟩ := ih bs hl
        refine ⟨by simp [hlen], ?_⟩
        intro i h1 h2
        match i with
        | 0 => exact ha
        | i + 1 =>
          exact hget i (by simpa using h1) (by simpa using h2)

lemma getitem_snd (p : Nat × AudioItem) :
    (NumpyDataset.getitem p).2 = (NumpyDataset.getitem (0, p.2)).2 := by
  obtain ⟨i, a⟩ := p
  simp only [NumpyDataset.getitem]
  split <;> rfl

lemma getitem_toCut (a : AudioItem) :
    NumpyDataset.getitem (0, AudioItem.toCut a) = NumpyDataset.getitem (0, a) := by
  cases a <;> rfl

/-- C1 (amended): for every homogeneous list of supported audio items that is nonempty
(or any homogeneous list when `sort_by_duration` is off) and every positive batch size,
`transcribe` equals the in-order per-item pipeline: the returned list has one entry per
input item and entry `i` is the parsed transcription of input item `i`, regardless of
`sort_by_duration` and `batch_size`. -/
theorem transcribe_preserves_order (g : List Rat → String) (sort_by_duration : Bool)
    (batch_size : Nat) (audio : List AudioItem)
    (hbs : 1 ≤ batch_size)
    (hhom : ∀ a ∈ audio, ∀ b ∈ audio, a.kind = b.kind)
    (hne : sort_by_duration = false ∨ audio ≠ []) :
    transcribe g sort_by_duration batch_size (.many audio)
      = mapOrFail (itemResult g) audio ∧
    ∀ res, transcribe g sort_by_duration batch_size (.many audio) = .ok res →
      res.length = audio.length ∧
      ∀ i (h1 : i < audio.length) (h2 : i < res.length),
        itemResult g (audio.get ⟨i, h1⟩) = .ok (res.get ⟨i, h2⟩) := by
  set w : AudioItem → Option String :=
    fun a => some (g (NumpyDataset.getitem (0, a)).2) with hw
  have horder : ∃ (base : List AudioItem) (pairs : List (Nat × AudioItem)),
      orderPhase sort_by_duration (.many audio) = .ok pairs ∧
      pairs.Perm base.enum ∧ base.map w = audio.map w ∧ base.length = audio.length := by
    cases sort_by_duration with
    | false => exact ⟨audio, audio.enum, rfl, List.Perm.refl _, rfl, rfl⟩
    | true =>
      match audio, hne, hhom with
      | [], hne, _ =>
        rcases hne with h | h
        · cases h
        · exact absurd rfl h
      | a0 :: rest, _, hhom =>
        have hmem0 : a0 ∈ a0 :: rest := by simp
        cases hk : a0.kind with
        | cut =>
          have hall : (a0 :: rest).all (fun a => a.kind == AudioKind.cut) = true := by
            apply List.all_eq_true.mpr
            intro a ha
            simp [hhom a ha a0 hmem0, hk]
          refine ⟨a0 :: rest, List.insertionSort sortLe (a0 :: rest).enum, ?_,
            List.perm_insertionSort sortLe _, rfl, rfl⟩
          simp [orderPhase, hk, hall]
        | wave =>
          have hall : (a0 :: rest).all (fun a => a.kind == AudioKind.wave) = true := by
            apply List.all_eq_true.mpr
            intro a ha
            simp [hhom a ha a0 hmem0, hk]
          refine ⟨a0 :: rest, List.insertionSort sortLe (a0 :: rest).enum, ?_,
            List.perm_insertionSort sortLe _, rfl, rfl⟩
          simp [orderPhase, hk, hall]
        | path =>
          have hall : (a0 :: rest).all (fun a => a.kind == AudioKind.path) = true := by
            apply List.all_eq_true.mpr
            intro a ha
            simp [hhom a ha a0 hmem0, hk]
          refine ⟨(a0 :: rest).map AudioItem.toCut,
            List.insertionSort sortLe ((a0 :: rest).map AudioItem.toCut).enum, ?_,
            List.perm_insertionSort sortLe _, ?_, by simp⟩
          · simp [orderPhase, hk, hall]
          · rw [List.map_map]
            apply List.map_congr_left
            intro a _
            simp only [Function.comp_apply, hw, getitem_toCut]
  obtain ⟨base, pairs, hop, hperm, hbase, hblen⟩ := horder
  have hplen : pairs.length = base.length := by
    rw [hperm.length_eq, List.enum_length]
  have htr : transcribe g sort_by_duration batch_size (.many audio)
      = mapOrFail (itemResult g) audio := by
    rw [transcribe, hop]
    simp only
    rw [foldl_batches, chunks_flatten batch_size hbs]
    have hfold : pairs.foldl
        (fun res p => res.set p.1 (some (g (NumpyDataset.getitem p).2)))
        (List.replicate pairs.length (none : Option String))
        = writeAll (List.replicate pairs.length (none : Option String))
            (pairs.map (fun p => (p.1, w p.2))) := by
      have hfn : (fun (res : List (Option String)) (p : Nat × AudioItem) =>
          res.set p.1 (some (g (NumpyDataset.getitem p).2)))
          = fun res p => res.set p.1 (w p.2) := by
        funext res p
        simp only [hw]
        rw [getitem_snd p]
      rw [hfn, writeAll, List.foldl_map]
    rw [hfold]
    have hinj : ∀ x ∈ pairs.map (fun p => (p.1, w p.2)),
        ∀ y ∈ pairs.map (fun p => (p.1, w p.2)), x.1 = y.1 → x.2 = y.2 := by
      intro x hx y hy hxy
      obtain ⟨px, hpx, hfx⟩ := List.mem_map.mp hx
      obtain ⟨py, hpy, hfy⟩ := List.mem_map.mp hy
      have hpx' : px ∈ base.enum := hperm.mem_iff.mp hpx
      have hpy' : py ∈ base.enum := hperm.mem_iff.mp hpy
      have : px = py := by
        apply enum_fst_inj hpx' hpy'
        rw [← hfx, ← hfy] at hxy
        exact hxy
      rw [← hfx, ← hfy, this]
    rw [writeAll_perm _ (hperm.map _) hinj]
    have henum : writeAll (List.replicate pairs.length (none : Option String))
        (base.enum.map (fun p => (p.1, w p.2))) = base.map w := by
      have h0 : base.enum = List.enumFrom ([] : List (Option String)).length base := rfl
      rw [hplen, h0]
      have := writeAll_enumFrom_map w base [] (none : Option String)
      simpa using this
    rw [henum, hbase, mapOrFail_map]
    have hfun : (fun a => toParse (w a)) = itemResult g := by
      funext a
      rfl
    rw [hfun]
  refine ⟨htr, ?_⟩
  intro res hres
  rw [htr] at hres
  exact mapOrFail_ok (itemResult g) audio res hres

/-- C1 counterexample: with the default `sort_by_duration=True`, an empty input list
does not produce the empty result list; `transcribe` raises `IndexError` because the
type dispatch reads `audio[0]` before checking for emptiness. -/
theorem transcribe_empty_sorted_counterexample :
    transcribe (fun _ => "") true 4 (.many []) = .error .indexError := rfl

theorem transcribe_preserves_order_witness :
    (1 ≤ 1) ∧
    (transcribe (fun _ => "<|a|><|b|><|c|><|d|>ok") true 1
        (.many [.wave [0, 0, 0], .wave []])
      = mapOrFail (itemResult (fun _ => "<|a|><|b|><|c|><|d|>ok"))
          [.wave [0, 0, 0], .wave []]) ∧
    ∀ res, transcribe (fun _ => "<|a|><|b|><|c|><|d|>ok") true 1
        (.many [.wave [0, 0, 0], .wave []]) = .ok res →
      res.length = ([AudioItem.wave [0, 0, 0], .wave []]).length := by
  have h := transcribe_preserves_order (fun _ => "<|a|><|b|><|c|><|d|>ok") true 1
    [.wave [0, 0, 0], .wave []]
    (Nat.le_refl 1) (by decide) (Or.inr (by decide))
  exact ⟨Nat.le_refl 1, h.1, fun res hres => (h.2 res hres).1⟩

/-- C6: materialised waveforms shorter than 1000 samples are right-padded with zeros to
exactly 1000 before feature extraction; waveforms of at least 1000 samples are passed
through unchanged (the boundary case of exactly 1000 samples takes the padding branch
but appends zero samples). -/
theorem getitem_pad_floor (i : Nat) (a : AudioItem) :
    ((materialize a).length < 1000 →
      (NumpyDataset.getitem (i, a)).2
          = materialize a ++ List.replicate (1000 - (materialize a).length) 0 ∧
      ((NumpyDataset.getitem (i, a)).2).length = 1000) ∧
    (1000 ≤ (materialize a).length →
      (NumpyDataset.getitem (i, a)).2 = materialize a) := by
  constructor
  · intro h
    have hle : (materialize a).length ≤ 1000 := Nat.le_of_lt h
    constructor
    · simp [NumpyDataset.getitem, hle]
    · simp only [NumpyDataset.getitem, hle, if_pos, List.length_append,
        List.length_replicate]
      omega
  · intro h
    rcases Nat.lt_or_ge 1000 (materialize a).length with h' | h'
    · have hng : ¬ ((materialize a).length ≤ 1000) := by omega
      simp [NumpyDataset.getitem, hng]
    · have heq : (materialize a).length = 1000 := Nat.le_antisymm h' h
      simp [NumpyDataset.getitem, heq]

theorem getitem_pad_floor_witness :
    ((materialize (.wave [1, 2, 3])).length < 1000) ∧
    (NumpyDataset.getitem (0, .wave [1, 2, 3])).2
        = materialize (.wave [1, 2, 3])
          ++ List.replicate (1000 - (materialize (.wave [1, 2, 3])).length) 0 ∧
    ((NumpyDataset.getitem (0, .wave [1, 2, 3])).2).length = 1000 :=
  ⟨by decide, (getitem_pad_floor 0 (.wave [1, 2, 3])).1 (by decide)⟩

/-- C7 (amended): with `sort_by_duration=True`, a list containing two items of different
representations makes `transcribe` raise in the ordering phase — before any batch work —
but the error is a type-dispatch failure (`AttributeError` from the missing
`duration`/`shape` attribute, or `Recording.from_file` rejecting a non-path), not a
dedicated `MixedTypeError`, which the code never defines.  (With
`sort_by_duration=False` mixed lists are not rejected at all; see the
counterexample.) -/
theorem mixed_list_sorted_rejected (g : List Rat → String) (batch_size : Nat)
    (audio : List AudioItem) (a b : AudioItem)
    (ha : a ∈ audio) (hb : b ∈ audio) (hmix : a.kind ≠ b.kind) :
    ∃ e, orderPhase true (.many audio) = .error e ∧
      transcribe g true batch_size (.many audio) = .error e := by
  match audio, ha, hb with
  | a0 :: rest, ha, hb =>
    obtain ⟨c, hc, hck⟩ : ∃ c ∈ a0 :: rest, c.kind ≠ a0.kind := by
      by_cases hka : a.kind = a0.kind
      · refine ⟨b, hb, fun hkb => hmix ?_⟩
        rw [hka, hkb]
      · exact ⟨a, ha, hka⟩
    have hallf : ∀ K : AudioKind, a0.kind = K →
        (a0 :: rest).all (fun x => x.kind == K) = false := by
      intro K hK
      apply Bool.eq_false_iff.mpr
      intro hall
      have := List.all_eq_true.mp hall c hc
      rw [beq_iff_eq] at this
      exact hck (this.trans hK.symm)
    cases hk : a0.kind with
    | cut =>
      refine ⟨.attributeError, ?_, ?_⟩ <;>
        simp [orderPhase, transcribe, hk, hallf AudioKind.cut hk]
    | path =>
      refine ⟨.typeError, ?_, ?_⟩ <;>
        simp [orderPhase, transcribe, hk, hallf AudioKind.path hk]
    | wave =>
      refine ⟨.attributeError, ?_, ?_⟩ <;>
        simp [orderPhase, transcribe, hk, hallf AudioKind.wave hk]

theorem mixed_list_sorted_rejected_witness :
    ∃ e, orderPhase true (.many [AudioItem.wave [0], AudioItem.cut 2 [0]]) = .error e ∧
      transcribe (fun _ => "") true 4 (.many [AudioItem.wave [0], AudioItem.cut 2 [0]])
        = .error e :=
  mixed_list_sorted_rejected (fun _ => "") 4 [AudioItem.wave [0], AudioItem.cut 2 [0]]
    (AudioItem.wave [0]) (AudioItem.cut 2 [0]) (by decide) (by decide) (by decide)

/-- C7 counterexample: with `sort_by_duration=False` a mixed list (a waveform and a file
path) is not rejected: no `MixedTypeError` (or any error) is raised, and each item is
loaded by its own representation and transcribed. -/
theorem mixed_list_not_rejected_counterexample :
    transcribe (fun _ => "<|a|><|b|><|c|><|d|>") false 4
        (.many [AudioItem.wave [0], AudioItem.path 3 [0]])
      = .ok [{ language := "a", emotion := "b", event := "c", textnorm := "d",
               text := some "", words := none },
             { language := "a", emotion := "b", event := "c", textnorm := "d",
               text := some "", words := none }] ∧
    AudioItem.kind (.wave [0]) ≠ AudioItem.kind (.path 3 [0]) := by
  exact ⟨by decide, by decide⟩

lemma chunksGo_nil {α : Type} (bs fuel : Nat) : chunksGo bs fuel ([] : List α) = [] := by
  cases fuel <;> rfl

lemma run_single (g : List Rat → String) (bs : Nat) (x : AudioItem) :
    mapOrFail toParse
      ((chunks bs [(0, x)]).foldl
        (fun acc batch => batch.foldl
          (fun res p => res.set p.1 (some (g (NumpyDataset.getitem p).2))) acc)
        [(none : Option String)])
    = if bs = 0 then .error .typeError
      else
        match OmniTranscription.parse (g (NumpyDataset.getitem (0, x)).2) with
        | .error e => .error e
        | .ok t => .ok [t] := by
  cases bs with
  | zero => rfl
  | succ n =>
    rw [if_neg (Nat.succ_ne_zero n)]
    have hch : chunks (n + 1) [((0 : Nat), x)] = [[(0, x)]] := by
      show chunksGo (n + 1) 1 [(0, x)] = [[(0, x)]]
      rw [chunksGo, List.take_succ_cons, List.take_nil, List.drop_succ_cons,
        List.drop_nil, chunksGo_nil]
    rw [hch]
    simp only [List.foldl_cons, List.foldl_nil, List.set]
    simp only [mapOrFail, toParse]
    cases OmniTranscription.parse (g (NumpyDataset.getitem (0, x)).2) <;> rfl

/-- C10: a single non-list audio item is accepted; `transcribe` wraps it as the one pair
`(0, audio)` and the result equals calling `transcribe` on the one-element list holding
that item, and any returned list has exactly one entry. -/
theorem transcribe_single_item (g : List Rat → String) (sort_by_duration : Bool)
    (batch_size : Nat) (a : AudioItem) :
    transcribe g sort_by_duration batch_size (.one a)
      = transcribe g sort_by_duration batch_size (.many [a]) ∧
    ∀ res, transcribe g sort_by_duration batch_size (.one a) = .ok res →
      res.length = 1 := by
  have hone : transcribe g sort_by_duration batch_size (.one a)
      = mapOrFail toParse
          ((chunks batch_size [(0, a)]).foldl
            (fun acc batch => batch.foldl
              (fun res p => res.set p.1 (some (g (NumpyDataset.getitem p).2))) acc)
            [(none : Option String)]) := rfl
  have hpairs : ∃ x : AudioItem,
      orderPhase sort_by_duration (.many [a]) = .ok [(0, x)] ∧
      NumpyDataset.getitem (0, x) = NumpyDataset.getitem (0, a) := by
    cases sort_by_duration with
    | false => exact ⟨a, rfl, rfl⟩
    | true =>
      cases a with
      | wave s =>
        exact ⟨.wave s, by simp [orderPhase, AudioItem.kind, List.insertionSort,
          List.orderedInsert], rfl⟩
      | cut d s =>
        exact ⟨.cut d s, by simp [orderPhase, AudioItem.kind, List.insertionSort,
          List.orderedInsert], rfl⟩
      | path d s =>
        exact ⟨.cut d s, by simp [orderPhase, AudioItem.kind, AudioItem.toCut,
          List.insertionSort, List.orderedInsert], getitem_toCut (.path d s)⟩
  obtain ⟨x, hx, hgx⟩ := hpairs
  have hmany : transcribe g sort_by_duration batch_size (.many [a])
      = mapOrFail toParse
          ((chunks batch_size [(0, x)]).foldl
            (fun acc batch => batch.foldl
              (fun res p => res.set p.1 (some (g (NumpyDataset.getitem p).2))) acc)
            [(none : Option String)]) := by
    simp only [transcribe, hx]
    rfl
  constructor
  · rw [hone, hmany, run_single g batch_size a, run_single g batch_size x, hgx]
  · intro res hres
    rw [hone, run_single g batch_size a] at hres
    by_cases hbs : batch_size = 0
    · rw [if_pos hbs] at hres
      cases hres
    · rw [if_neg hbs] at hres
      cases hp : OmniTranscription.parse (g (NumpyDataset.getitem (0, a)).2) with
      | error e =>
        simp only [hp] at hres
        exact Except.noConfusion hres
      | ok t =>
        simp only [hp] at hres
        cases hres
        rfl

theorem transcribe_single_item_witness :
    (transcribe (fun _ => "<|a|><|b|><|c|><|d|>x") true 4 (.one (.wave [0, 0]))
      = transcribe (fun _ => "<|a|><|b|><|c|><|d|>x") true 4 (.many [.wave [0, 0]])) ∧
    ∀ res, transcribe (fun _ => "<|a|><|b|><|c|><|d|>x") true 4 (.one (.wave [0, 0]))
        = .ok res → res.length = 1 :=
  transcribe_single_item (fun _ => "<|a|><|b|><|c|><|d|>x") true 4 (.wave [0, 0])

lemma getD_set_self {δ : Type} (r : List δ) (i : Nat) (v d : δ) (h : i < r.length) :
    (r.set i v).getD i d = v := by
  simp [List.getD_eq_getElem?_getD, List.getElem?_set_self', h]

lemma getD_set_ne {δ : Type} (r : List δ) {i j : Nat} (v d : δ) (h : i ≠ j) :
    (r.set i v).getD j d = r.getD j d := by
  simp [List.getD_eq_getElem?_getD, List.getElem?_set_ne h]

lemma getD_eq_get {δ : Type} (l : List δ) (d : δ) {k : Nat} (hk : k < l.length) :
    l.getD k d = l.get ⟨k, hk⟩ := by
  simp [List.getD_eq_getElem?_getD, List.getElem?_eq_getElem hk]

lemma writeAll_not_mem_getD {δ : Type} (d : δ) :
    ∀ (ps : List (Nat × δ)) (r : List δ) (j : Nat), j ∉ ps.map Prod.fst →
      (writeAll r ps).getD j d = r.getD j d := by
  intro ps
  induction ps with
  | nil => intro r j _; rfl
  | cons p ps ih =>
    intro r j hj
    rw [List.map_cons, List.mem_cons] at hj
    push_neg at hj
    rw [writeAll, List.foldl_cons, ← writeAll, ih _ j hj.2,
      getD_set_ne r p.2 d (fun h => hj.1 h.symm)]

lemma writeAll_getD {δ : Type} (d : δ) :
    ∀ (ps : List (Nat × δ)) (r : List δ) (k : Nat) (hk : k < ps.length),
      (ps.map Prod.fst).Nodup → (ps.get ⟨k, hk⟩).1 < r.length →
      (writeAll r ps).getD (ps.get ⟨k, hk⟩).1 d = (ps.get ⟨k, hk⟩).2 := by
  intro ps
  induction ps with
  | nil => intro r k hk; cases hk
  | cons p ps ih =>
    intro r k hk hnd hlt
    rw [List.map_cons, List.nodup_cons] at hnd
    match k with
    | 0 =>
      show (writeAll (r.set p.1 p.2) ps).getD p.1 d = p.2
      rw [writeAll_not_mem_getD d ps _ p.1 hnd.1,
        getD_set_self r p.1 p.2 d hlt]
    | k + 1 =>
      rw [writeAll, List.foldl_cons, ← writeAll]
      have hk' : k < ps.length := by simpa using hk
      have hlt' : (ps.get ⟨k, hk'⟩).1 < (r.set p.1 p.2).length := by
        simpa [List.length_set] using hlt
      simpa using ih (r.set p.1 p.2) k hk' hnd.2 hlt'

lemma range_map_getD {δ : Type} :
    ∀ (l : List δ) (d : δ), (List.range l.length).map (fun k => l.getD k d) = l := by
  intro l
  induction l with
  | nil => intro d; rfl
  | cons a l ih =>
    intro d
    rw [List.length_cons, List.range_succ_eq_map, List.map_cons, List.map_map]
    have : ((fun k => (a :: l).getD k d) ∘ (· + 1)) = fun k => l.getD k d := by
      funext k
      rfl
    rw [this, ih d]
    rfl

/-- First loop of the timestamped branch (source lines 194-199):
`ctc_maxids = ctc_logits[:, :4].argmax(dim=-1)`, then for each `(b, index)` in
`enumerate(indexs)` the first four ids of row `b` are detokenized, parsed, and stored
at `results[index]`.  `decode` is the external `tokenizer.decode`.  A parse failure
propagates; a batch row missing for some position raises `IndexError`. -/
def firstPass (decode : List Nat → String) :
    List Nat → List (List (List Int)) → List (Option OmniTranscription) →
      Except PyError (List (Option OmniTranscription))
  | [], _, res => .ok res
  | _ :: _, [], _ => .error .indexError
  | index :: idxs, logit :: lgs, res =>
    match OmniTranscription.parse (decode ((logit.take 4).map argmaxIdx)) with
    | .error e => .error e
    | .ok t => firstPass decode idxs lgs (res.set index (some t))

/-- The timestamped branch of `transcribe` for one batch (source lines 193-217).
`decode` is the external `tokenizer.decode`; `greedy` is `ctc_greedy_search` from
`k2_utils` (repository code not under `src/`), an opaque capability returning the
per-utterance `(utt_time_pairs, utt_words)`.  It receives `ctc_logits[:, 4:]`
(each item's frames from index 4 on) and `encoder_out_lens - 4`.  The second loop reads
the snapshot `[results[index] for index in indexs]` (evaluated eagerly before `zip`
iteration) and stores, at `indexs[k]`, the metadata record extended with the aligned
words — `AlignmentItem(symbol=word, start=pair[0], duration=round(pair[1] - pair[0],
ndigits=4))` — and `text = " ".join(words)`. -/
def timestampedBatch (decode : List Nat → String)
    (greedy : List (List (List Int)) → List Int →
      List (List (Rat × Rat)) × List (List String))
    (indexs : List Nat) (ctc_logits : List (List (List Int)))
    (encoder_out_lens : List Int)
    (results : List (Option OmniTranscription)) :
    Except PyError (List (Option OmniTranscription)) :=
  match firstPass decode indexs ctc_logits results with
  | .error e => .error e
  | .ok results1 =>
    let pw := greedy (ctc_logits.map (List.drop 4)) (encoder_out_lens.map (fun n => n - 4))
    let utt_time_pairs := pw.1
    let utt_words := pw.2
    let snapshot := indexs.map (fun index => results1.getD index none)
    .ok (((snapshot.zip (utt_time_pairs.zip utt_words)).enum).foldl
      (fun res kz =>
        res.set (indexs.getD kz.1 0)
          (kz.2.1.map (fun result =>
            { result with
              words := some ((kz.2.2.1.zip kz.2.2.2).map
                (fun pw2 => { symbol := pw2.2, start := pw2.1.1,
                              duration := pyRound 4 (pw2.1.2 - pw2.1.1) })),
              text := some (String.intercalate " " kz.2.2.2) })))
      results1)

lemma firstPass_ok (decode : List Nat → String) :
    ∀ (idxs : List Nat) (lgs : List (List (List Int)))
      (res : List (Option OmniTranscription)) (m : Nat → OmniTranscription),
      idxs.length = lgs.length →
      (∀ b, b < lgs.length →
        OmniTranscription.parse (decode (((lgs.getD b []).take 4).map argmaxIdx))
          = .ok (m b)) →
      firstPass decode idxs lgs res
        = .ok (writeAll res
            (idxs.zip ((List.range lgs.length).map (fun b => some (m b))))) := by
  intro idxs
  induction idxs with
  | nil =>
    intro lgs res m hlen _
    cases lgs with
    | nil => rfl
    | cons lg lgs => cases hlen
  | cons i idxs ih =>
    intro lgs res m hlen hparse
    cases lgs with
    | nil => cases hlen
    | cons lg lgs =>
      have h0 := hparse 0 (by simp)
      rw [firstPass]
      have h0' : OmniTranscription.parse (decode ((lg.take 4).map argmaxIdx))
          = .ok (m 0) := h0
      rw [h0']
      have ih' := ih lgs (res.set i (some (m 0))) (fun b => m (b + 1))
        (by simpa using hlen)
        (by
          intro b hb
          exact hparse (b + 1) (by simpa using hb))
      show firstPass decode idxs lgs (res.set i (some (m 0)))
          = Except.ok (writeAll res ((i :: idxs).zip
              ((List.range (lg :: lgs).length).map (fun b => some (m b)))))
      rw [ih']
      rw [List.length_cons, List.range_succ_eq_map, List.map_cons, List.map_map]
      rfl

/-- C9: in the timestamped branch, for each item `k` of the batch the stored record is
the parse of the detokenized argmax ids of exactly the first 4 output frames of that
item's logits (independent of the rest); the alignment search is applied to
`ctc_logits[:, 4:]` — the frames from index 4 on — with every output length reduced
by 4; and the final record extends the metadata with one `AlignmentItem` per aligned
word whose `duration` is its end time minus its start time rounded to 4 decimal digits,
and with `text` the space-joined word list. -/
theorem timestamped_batch_spec (decode : List Nat → String)
    (greedy : List (List (List Int)) → List Int →
      List (List (Rat × Rat)) × List (List String))
    (indexs : List Nat) (ctc_logits : List (List (List Int)))
    (encoder_out_lens : List Int) (results : List (Option OmniTranscription))
    (metaOf : Nat → OmniTranscription)
    (pairs : List (List (Rat × Rat))) (words : List (List String))
    (hnd : indexs.Nodup)
    (hlen : indexs.length = ctc_logits.length)
    (hin : ∀ i ∈ indexs, i < results.length)
    (hparse : ∀ b, b < ctc_logits.length →
      OmniTranscription.parse (decode (((ctc_logits.getD b []).take 4).map argmaxIdx))
        = .ok (metaOf b))
    (hg : greedy (ctc_logits.map (List.drop 4))
        (encoder_out_lens.map (fun n => n - 4)) = (pairs, words))
    (hp : pairs.length = indexs.length) (hw : words.length = indexs.length) :
    ∃ final,
      timestampedBatch decode greedy indexs ctc_logits encoder_out_lens results
        = .ok final ∧
      final.length = results.length ∧
      ∀ k (hk : k < indexs.length),
        final.getD (indexs.getD k 0) none
          = some { metaOf k with
              words := some (((pairs.getD k []).zip (words.getD k [])).map
                (fun pw2 => ({ symbol := pw2.2, start := pw2.1.1,
                               duration := pyRound 4 (pw2.1.2 - pw2.1.1) }
                  : AlignmentItem))),
              text := some (String.intercalate " " (words.getD k [])) } := by
  have hfp := firstPass_ok decode indexs ctc_logits results metaOf hlen hparse
  have hbatch : timestampedBatch decode greedy indexs ctc_logits encoder_out_lens
      results
      = .ok (writeAll
          (writeAll results (indexs.zip
            ((List.range ctc_logits.length).map (fun b => some (metaOf b)))))
          ((((indexs.map (fun index =>
              (writeAll results (indexs.zip
                ((List.range ctc_logits.length).map
                  (fun b => some (metaOf b))))).getD index none)).zip
              (pairs.zip words)).enum).map
            (fun kz => (indexs.getD kz.1 0, kz.2.1.map (fun result =>
              { result with
                words := some ((kz.2.2.1.zip kz.2.2.2).map
                  (fun pw2 => { symbol := pw2.2, start := pw2.1.1,
                                duration := pyRound 4 (pw2.1.2 - pw2.1.1) })),
                text := some (String.intercalate " " kz.2.2.2) }))))) := by
    have hwm : ∀ {γ : Type} (f : γ → Nat × Option OmniTranscription) (l : List γ)
        (r : List (Option OmniTranscription)),
        writeAll r (l.map f) = l.foldl (fun res kz => res.set (f kz).1 (f kz).2) r := by
      intro γ f l r
      rw [writeAll, List.foldl_map]
    simp only [timestampedBatch, hfp, hg]
    rw [hwm]
  rw [hbatch]
  set vs := (List.range ctc_logits.length).map (fun b => some (metaOf b)) with hvs
  set metas := writeAll results (indexs.zip vs) with hmetasdef
  set snapshot := indexs.map (fun index => metas.getD index none) with hsnap
  set zipped := snapshot.zip (pairs.zip words) with hzip
  set ps2 := zipped.enum.map
    (fun kz => ((indexs.getD kz.1 0, kz.2.1.map (fun result =>
      { result with
        words := some ((kz.2.2.1.zip kz.2.2.2).map
          (fun pw2 => { symbol := pw2.2, start := pw2.1.1,
                        duration := pyRound 4 (pw2.1.2 - pw2.1.1) })),
        text := some (String.intercalate " " kz.2.2.2) }))
      : Nat × Option OmniTranscription)) with hps2
  have hvslen : vs.length = indexs.length := by
    rw [hvs, List.length_map, List.length_range, hlen]
  have hmlen : metas.length = results.length := writeAll_length _ _
  have hzip1len : (indexs.zip vs).length = indexs.length := by
    rw [List.length_zip, hvslen, min_self]
  have hfst1 : (indexs.zip vs).map Prod.fst = indexs :=
    List.map_fst_zip indexs vs (by rw [hvslen])
  have hmetas_at : ∀ (k : Nat) (hk : k < indexs.length),
      metas.getD (indexs[k]) none = some (metaOf k) := by
    intro k hk
    have hk1 : k < (indexs.zip vs).length := by rw [hzip1len]; exact hk
    have hkv : k < vs.length := by rw [hvslen]; exact hk
    have hgetzip : (indexs.zip vs).get ⟨k, hk1⟩ = (indexs[k], vs[k]) := by
      simp [List.get_eq_getElem, List.getElem_zip]
    have hvsk : vs[k] = some (metaOf k) := by
      simp [hvs, List.getElem_map, List.getElem_range]
    have hlt1 : ((indexs.zip vs).get ⟨k, hk1⟩).1 < results.length := by
      rw [hgetzip]
      exact hin _ (List.get_mem indexs k hk)
    have hw1 := writeAll_getD (none : Option OmniTranscription) (indexs.zip vs)
      results k hk1 (by rw [hfst1]; exact hnd) hlt1
    simp only [hgetzip] at hw1
    rw [hvsk] at hw1
    exact hw1
  have hslen : snapshot.length = indexs.length := by
    rw [hsnap, List.length_map]
  have hpwlen : (pairs.zip words).length = indexs.length := by
    rw [List.length_zip, hp, hw, min_self]
  have hzlen : zipped.length = indexs.length := by
    rw [hzip, List.length_zip, hslen, hpwlen, min_self]
  have hps2len : ps2.length = indexs.length := by
    rw [hps2, List.length_map, List.enum_length, hzlen]
  have hps2fst : ps2.map Prod.fst = indexs := by
    rw [hps2, List.map_map]
    show zipped.enum.map ((fun k => indexs.getD k 0) ∘ Prod.fst) = indexs
    rw [← List.map_map, List.enum_map_fst, hzlen]
    exact range_map_getD indexs 0
  refine ⟨_, rfl, by rw [writeAll_length, hmlen], ?_⟩
  intro k hk
  have hidx : indexs.getD k 0 = indexs[k] := by
    simp [List.getD_eq_getElem?_getD, List.getElem?_eq_getElem hk]
  have hk2 : k < ps2.length := by rw [hps2len]; exact hk
  have hkz : k < zipped.length := by rw [hzlen]; exact hk
  have hks : k < snapshot.length := by rw [hslen]; exact hk
  have hkp : k < pairs.length := by rw [hp]; exact hk
  have hkw : k < words.length := by rw [hw]; exact hk
  have hkpw : k < (pairs.zip words).length := by rw [hpwlen]; exact hk
  have hzk : zipped[k] = (snapshot[k], (pairs[k], words[k])) := by
    simp [hzip, List.getElem_zip]
  have hsnapk : snapshot[k] = some (metaOf k) := by
    simp only [hsnap, List.getElem_map]
    exact hmetas_at k hk
  have hps2get : ps2.get ⟨k, hk2⟩
      = (indexs.getD k 0,
         some { metaOf k with
                words := some (((pairs[k]).zip (words[k])).map
                  (fun pw2 => { symbol := pw2.2, start := pw2.1.1,
                                duration := pyRound 4 (pw2.1.2 - pw2.1.1) })),
                text := some (String.intercalate " " (words[k])) }) := by
    rw [List.get_eq_getElem]
    simp only [hps2, List.getElem_map, List.getElem_enum]
    rw [hzk, hsnapk]
    rfl
  have hlt2 : (ps2.get ⟨k, hk2⟩).1 < metas.length := by
    rw [hps2get]
    rw [hidx, hmlen]
    exact hin _ (List.getElem_mem hk)
  have hmain := writeAll_getD (none : Option OmniTranscription) ps2 metas k hk2
    (by rw [hps2fst]; exact hnd) hlt2
  simp only [hps2get] at hmain
  have hpk : pairs.getD k [] = pairs[k] := by
    simp [List.getD_eq_getElem?_getD, List.getElem?_eq_getElem hkp]
  have hwk : words.getD k [] = words[k] := by
    simp [List.getD_eq_getElem?_getD, List.getElem?_eq_getElem hkw]
  rw [hpk, hwk]
  exact hmain

theorem timestamped_batch_spec_witness :
    ∃ final,
      timestampedBatch (fun _ => "<|en|><|EMO|><|Speech|><|woitn|>")
          (fun _ _ => ([[((0 : Rat), (3 : Rat) / 10)]], [["hi"]]))
          [0] [[[5, 1], [1, 5], [5, 1], [1, 5], [9, 0]]] [5] [none]
        = .ok final ∧
      final.length = ([none] : List (Option OmniTranscription)).length ∧
      ∀ k (hk : k < ([0] : List Nat).length),
        final.getD (([0] : List Nat).getD k 0) none
          = some { ({ language := "en", emotion := "EMO", event := "Speech",
                      textnorm := "woitn", text := some "", words := none }
                    : OmniTranscription) with
              words := some
                (((([[((0 : Rat), (3 : Rat) / 10)]]
                      : List (List (Rat × Rat))).getD k []).zip
                    (([["hi"]] : List (List String)).getD k [])).map
                  (fun pw2 => ({ symbol := pw2.2, start := pw2.1.1,
                                 duration := pyRound 4 (pw2.1.2 - pw2.1.1) }
                    : AlignmentItem))),
              text := some (String.intercalate " "
                (([["hi"]] : List (List String)).getD k [])) } := by
  exact timestamped_batch_spec
    (fun _ => "<|en|><|EMO|><|Speech|><|woitn|>")
    (fun _ _ => ([[((0 : Rat), (3 : Rat) / 10)]], [["hi"]]))
    [0] [[[5, 1], [1, 5], [5, 1], [1, 5], [9, 0]]] [5] [none]
    (fun _ => { language := "en", emotion := "EMO", event := "Speech",
                textnorm := "woitn", text := some "", words := none })
    [[((0 : Rat), (3 : Rat) / 10)]] [["hi"]]
    (by decide) rfl (by decide)
    (by
      intro b hb
      show OmniTranscription.parse "<|en|><|EMO|><|Speech|><|woitn|>"
          = Except.ok { language := "en", emotion := "EMO", event := "Speech",
                        textnorm := "woitn", text := some "", words := none }
      decide)
    rfl rfl rfl
